import Mathlib

/-!
# Verification of the `uvw::Emitter` event-dispatch core

Shallow embedding of `src/uvw/emitter.hpp` (class `Emitter<T>` with its nested
`Handler<E>`): two ordered listener sequences per event type (`onL`, persistent,
grown by insertion at the front; `onceL`, one-shot, grown by insertion at the
back), tombstone-based erasure, snapshot-style dispatch, and a lazily grown
type-indexed vector of handlers.

Modelling choices:
* A listener body is deep-embedded as a list of `Action`s it performs when
  invoked (erasing a connection, registering further listeners, mutating the
  shared event payload).  This is the family of listeners needed to express the
  claims about mid-dispatch mutation while keeping the state first-order.
* An event payload is a mutable natural number; `publish` passes the same
  payload cell to all listeners (the C++ dispatch lambda captures `event` by
  reference), modelled by threading one value through dispatch and recording,
  for every invocation, the payload value the listener observes.
* A `std::list` iterator is modelled by a serial number that is assigned at
  registration from a per-handler counter and stamped on the element;
  `erase(conn)` tombstones the element carrying that serial wherever it lives.
  Serial numbers of reachable handlers are unique, mirroring iterator identity.
* `std::for_each(l.rbegin(), l.rend(), f)` over a `std::list` visits exactly
  the nodes present when the traversal starts, back to front (node links are
  stable; a front insertion made by a listener lands before the captured
  `rend` base and is not visited).  This is modelled by snapshotting the list
  of serials at traversal start and looking each serial up in the live
  structure at visit time (so a tombstone set mid-dispatch is seen).
-/

set_option linter.unusedVariables false

namespace Uvw

/-- Deep-embedded listener bodies: what a listener may do to the emitter state
and to the shared event payload while it is being invoked. -/
inductive Action where
  | eraseA : Nat → Action
  | regOnce : Nat → List Action → Action
  | regOn : Nat → List Action → Action
  | setEvent : Nat → Action

/-- One stored listener entry: `std::pair<bool, Listener>` plus the serial
number standing for the iterator identity of its `std::list` node.  `tomb` is
the `first` component (logical-deletion marker), `lid` an observable label of
the listener, `acts` its deep-embedded body. -/
structure Element where
  serial : Nat
  tomb : Bool
  lid : Nat
  acts : List Action

/-- `Handler<E>`: the two listener sequences and the serial counter standing
for iterator identity. -/
structure Handler where
  onceL : List Element
  onL : List Element
  nextSerial : Nat

/-- A freshly constructed `Handler<E>` (both sequences empty). -/
def Handler.init : Handler := ⟨[], [], 0⟩

/-- `Handler::empty()`: all entries of both sequences are tombstoned. -/
def Handler.emptyQ (h : Handler) : Bool :=
  h.onceL.all (·.tomb) && h.onL.all (·.tomb)

/-- Tombstone one element if it carries the given serial (the effect of
`erase` through the iterator to that node). -/
def eraseElem (c : Nat) (e : Element) : Element :=
  if e.serial = c then { e with tomb := true } else e

/-- Tombstone the element carrying serial `c` in a sequence. -/
def eraseList (c : Nat) (l : List Element) : List Element :=
  l.map (eraseElem c)

/-- `Handler::erase(conn)`: set the tombstone of the referenced entry. -/
def Handler.eraseH (h : Handler) (c : Nat) : Handler :=
  { h with onceL := eraseList c h.onceL, onL := eraseList c h.onL }

/-- `Handler::clear()`: tombstone every entry of both sequences. -/
def Handler.clearH (h : Handler) : Handler :=
  { h with onceL := h.onceL.map (fun e => { e with tomb := true }),
           onL := h.onL.map (fun e => { e with tomb := true }) }

/-- `Handler::once(f)`: append a live entry at the back of the one-shot
sequence; the returned serial is the connection. -/
def Handler.onceH (h : Handler) (lid : Nat) (acts : List Action) : Handler × Nat :=
  ({ h with onceL := h.onceL ++ [⟨h.nextSerial, false, lid, acts⟩],
            nextSerial := h.nextSerial + 1 }, h.nextSerial)

/-- `Handler::on(f)`: prepend a live entry at the front of the persistent
sequence; the returned serial is the connection. -/
def Handler.onH (h : Handler) (lid : Nat) (acts : List Action) : Handler × Nat :=
  ({ h with onL := ⟨h.nextSerial, false, lid, acts⟩ :: h.onL,
            nextSerial := h.nextSerial + 1 }, h.nextSerial)

/-- A recorded listener invocation: which entry fired (by serial and label)
and the event payload value it observed. -/
structure Inv where
  serial : Nat
  lid : Nat
  ev : Nat
deriving DecidableEq

/-- The state threaded through one `Handler::publish` call: the live handler
(whose one-shot sequence was moved out), the moved-out temporary one-shot
sequence `cur` (the local `currentL`), the shared event payload, and the
trace of invocations performed so far. -/
structure DState where
  h : Handler
  cur : List Element
  ev : Nat
  tr : List Inv

/-- Effect of one listener action on the dispatch state.  `eraseA` reaches the
node through its iterator, so it tombstones the matching entry wherever the
node currently lives (live sequences or the moved-out temporary). -/
def runAction (st : DState) : Action → DState
  | .eraseA c =>
      { st with h := st.h.eraseH c, cur := eraseList c st.cur }
  | .regOnce lid acts => { st with h := (st.h.onceH lid acts).1 }
  | .regOn lid acts => { st with h := (st.h.onH lid acts).1 }
  | .setEvent v => { st with ev := v }

/-- Run a listener body. -/
def runActions (st : DState) : List Action → DState
  | [] => st
  | a :: rest => runActions (runAction st a) rest

/-- Which sequence a dispatch pass traverses: the live persistent sequence or
the moved-out temporary one-shot sequence. -/
inductive Tgt where
  | pers : Tgt
  | temp : Tgt

/-- The sequence a pass reads at visit time. -/
def DState.readList (st : DState) : Tgt → List Element
  | .pers => st.h.onL
  | .temp => st.cur

/-- Find the entry carrying a serial (dereferencing the iterator). -/
def lookupSerial (s : Nat) (l : List Element) : Option Element :=
  l.find? (fun e => e.serial == s)

/-- Visit one node of a traversal: dereference its iterator in the live
structure; if the entry is tombstoned do nothing (`element.first ? void() :`),
otherwise record the invocation with the current payload value and run the
listener body. -/
def visitOne (tgt : Tgt) (s : Nat) (st : DState) : DState :=
  match lookupSerial s (st.readList tgt) with
  | none => st
  | some e =>
    if e.tomb then st
    else runActions { st with tr := st.tr ++ [⟨e.serial, e.lid, st.ev⟩] } e.acts

/-- One `std::for_each` pass over a snapshot of node serials. -/
def visitL (tgt : Tgt) (st : DState) : List Nat → DState
  | [] => st
  | s :: rest => visitL tgt (visitOne tgt s st) rest

/-- `Handler::publish(event, ref)`:
1. swap the one-shot sequence into the local temporary (`onceL.swap(currentL)`);
2. traverse the persistent sequence in reverse (oldest registration first);
3. traverse the temporary in reverse (newest registration first);
4. drop the temporary; compact tombstoned persistent entries (`remove_if`).
Returns the final handler and the invocation trace of this call. -/
def Handler.publishH (h : Handler) (ev : Nat) : Handler × List Inv :=
  let st0 : DState := ⟨{ h with onceL := [] }, h.onceL, ev, []⟩
  let st1 := visitL .pers st0 ((st0.h.onL.map (·.serial)).reverse)
  let st2 := visitL .temp st1 ((st1.cur.map (·.serial)).reverse)
  ({ st2.h with onL := st2.h.onL.filter (fun e => !e.tomb) }, st2.tr)

/-- `Emitter<T>`: the lazily grown, type-indexed vector of handlers
(`std::vector<std::unique_ptr<BaseHandler>>`; a `none` slot is a null
pointer). -/
structure Emitter where
  handlers : List (Option Handler)

/-- A default-constructed emitter. -/
def Emitter.initE : Emitter := ⟨[]⟩

/-- Read slot `t` (out-of-range counts as null, as in `Emitter::empty`). -/
def Emitter.slot (e : Emitter) (t : Nat) : Option Handler :=
  e.handlers.getD t none

/-- `Emitter::handler<E>()`: if the vector is not longer than the type id,
resize it to exactly `id + 1` slots (new slots null); if the slot is null,
construct a fresh `Handler<E>` there. -/
def Emitter.handlerE (e : Emitter) (t : Nat) : Emitter :=
  let hs := if t < e.handlers.length then e.handlers
            else e.handlers ++ List.replicate (t + 1 - e.handlers.length) none
  match hs.getD t none with
  | some _ => ⟨hs⟩
  | none => ⟨hs.set t (some Handler.init)⟩

/-- The handler reference returned by `Emitter::handler<E>()` (after
`handlerE` the slot is always populated; the default is dead code). -/
def Emitter.refH (e : Emitter) (t : Nat) : Handler :=
  ((e.handlerE t).slot t).getD Handler.init

/-- `Emitter::on<E>(f)`. -/
def Emitter.onE (e : Emitter) (t lid : Nat) (acts : List Action) : Emitter × Nat :=
  let e' := e.handlerE t
  let p := (e.refH t).onH lid acts
  (⟨e'.handlers.set t (some p.1)⟩, p.2)

/-- `Emitter::once<E>(f)`. -/
def Emitter.onceE (e : Emitter) (t lid : Nat) (acts : List Action) : Emitter × Nat :=
  let e' := e.handlerE t
  let p := (e.refH t).onceH lid acts
  (⟨e'.handlers.set t (some p.1)⟩, p.2)

/-- `Emitter::erase<E>(conn)` (note: goes through `handler<E>()`, so it
creates the slot if absent). -/
def Emitter.eraseE (e : Emitter) (t c : Nat) : Emitter :=
  let e' := e.handlerE t
  ⟨e'.handlers.set t (some ((e.refH t).eraseH c))⟩

/-- `Emitter::clear<E>()`. -/
def Emitter.clearE (e : Emitter) (t : Nat) : Emitter :=
  let e' := e.handlerE t
  ⟨e'.handlers.set t (some ((e.refH t).clearH))⟩

/-- `Emitter::clearAll()`: clear every non-null slot. -/
def Emitter.clearAllE (e : Emitter) : Emitter :=
  ⟨e.handlers.map (fun oh => oh.map Handler.clearH)⟩

/-- Protected `Emitter::publish<E>(event)`. -/
def Emitter.publishE (e : Emitter) (t ev : Nat) : Emitter × List Inv :=
  let e' := e.handlerE t
  let p := (e.refH t).publishH ev
  (⟨e'.handlers.set t (some p.1)⟩, p.2)

/-- `Emitter::empty<E>()`: never-touched (out of range or null slot) or an
all-tombstoned handler. -/
def Emitter.emptyForType (e : Emitter) (t : Nat) : Bool :=
  !(decide (t < e.handlers.length)) ||
    (match e.handlers.getD t none with
     | none => true
     | some h => h.emptyQ)

/-- Overall `Emitter::empty()`: every slot is null or empty. -/
def Emitter.emptyAll (e : Emitter) : Bool :=
  e.handlers.all (fun oh => match oh with
    | none => true
    | some h => h.emptyQ)

/-- The public operations of the emitter, as a closed operation language over
which the temporal claims quantify. -/
inductive Op where
  | onceO : Nat → Nat → List Action → Op
  | onO : Nat → Nat → List Action → Op
  | eraseO : Nat → Nat → Op
  | clearO : Nat → Op
  | clearAllO : Op
  | publishO : Nat → Nat → Op

/-- Whether an operation is a publish of event type `t`. -/
def Op.isPublishOn (op : Op) (t : Nat) : Bool :=
  match op with
  | .publishO t' _ => t' == t
  | _ => false

/-- One emitter operation, returning the trace it produced, each invocation
tagged with the event type it belongs to. -/
def step (e : Emitter) : Op → Emitter × List (Nat × Inv)
  | .onceO t lid acts => ((e.onceE t lid acts).1, [])
  | .onO t lid acts => ((e.onE t lid acts).1, [])
  | .eraseO t c => (e.eraseE t c, [])
  | .clearO t => (e.clearE t, [])
  | .clearAllO => (e.clearAllE, [])
  | .publishO t ev =>
      let p := e.publishE t ev
      (p.1, p.2.map (fun i => (t, i)))

/-- Run a sequence of emitter operations, concatenating the traces. -/
def run (e : Emitter) : List Op → Emitter × List (Nat × Inv)
  | [] => (e, [])
  | op :: rest =>
      let p := step e op
      let q := run p.1 rest
      (q.1, p.2 ++ q.2)

/-- Occurrences of the listener with serial `s` of event type `t` in a tagged
trace. -/
def countInv (t s : Nat) (tr : List (Nat × Inv)) : Nat :=
  tr.countP (fun p => p.1 == t && p.2.serial == s)

/-- Trace occurrences of the listener entry with serial `s` (handler-level
traces). -/
def countTr (s : Nat) (tr : List Inv) : Nat :=
  tr.countP (fun i => i.serial == s)

/-- Number of live (non-tombstoned) entries carrying serial `s` in a
sequence. -/
def liveCount (s : Nat) (l : List Element) : Nat :=
  l.countP (fun e => e.serial == s && !e.tomb)

/-- Live one-shot entries with serial `s`: the bound in the fire-at-most-once
argument. -/
def Blive (s : Nat) (h : Handler) : Nat := liveCount s h.onceL

/-- Serials are assigned from the counter, so every stored serial is below
it.  This holds for every reachable handler. -/
def Handler.WFh (h : Handler) : Prop :=
  (∀ e ∈ h.onceL, e.serial < h.nextSerial) ∧
    (∀ e ∈ h.onL, e.serial < h.nextSerial)

/-- Serial-boundedness for the in-dispatch state (including the moved-out
temporary). -/
def DState.WFd (st : DState) : Prop :=
  (∀ e ∈ st.h.onceL, e.serial < st.h.nextSerial) ∧
    (∀ e ∈ st.h.onL, e.serial < st.h.nextSerial) ∧
    (∀ e ∈ st.cur, e.serial < st.h.nextSerial)

/-- Every populated slot of a reachable emitter holds a serial-bounded
handler. -/
def Emitter.WFe (e : Emitter) : Prop :=
  ∀ t h, e.slot t = some h → h.WFh

/-- Invariant tracked for the fire-at-most-once claim about the one-shot
listener with serial `s`: `s` is below the counter (so no later registration
reuses it), absent from the persistent sequence, and carried by at most one
one-shot entry. -/
def Jh (s : Nat) (h : Handler) : Prop :=
  s < h.nextSerial ∧ (∀ e ∈ h.onL, e.serial ≠ s) ∧
    h.onceL.countP (fun e => e.serial == s) ≤ 1

/-- In-dispatch version of `Jh` on the live handler: the live one-shot
sequence was emptied at publish entry, so `s` is absent from it outright, and
every serial assigned later is fresh. -/
def SJh (s : Nat) (h : Handler) : Prop :=
  s < h.nextSerial ∧ (∀ e ∈ h.onL, e.serial ≠ s) ∧
    (∀ e ∈ h.onceL, e.serial ≠ s)

/-- A sequence of listeners with trivial bodies (they only get recorded). -/
def passiveL (l : List Element) : Prop := ∀ e ∈ l, e.acts = []

/-! ## Basic dispatch lemmas -/

theorem eraseElem_serial (c : Nat) (e : Element) :
    (eraseElem c e).serial = e.serial := by
  unfold eraseElem; split <;> rfl

theorem eraseList_serials (c : Nat) (l : List Element) :
    (eraseList c l).map (·.serial) = l.map (·.serial) := by
  unfold eraseList
  rw [List.map_map]
  exact List.map_congr_left (fun e _ => eraseElem_serial c e)

theorem runAction_tr (st : DState) (a : Action) : (runAction st a).tr = st.tr := by
  cases a <;> rfl

theorem runActions_tr (st : DState) (acts : List Action) :
    (runActions st acts).tr = st.tr := by
  induction acts generalizing st with
  | nil => rfl
  | cons a rest ih => rw [runActions, ih, runAction_tr]

theorem runAction_ev (st : DState) (a : Action) :
    (runAction st a).ev = st.ev ∨ ∃ v, a = .setEvent v ∧ (runAction st a).ev = v := by
  cases a with
  | setEvent v => exact Or.inr ⟨v, rfl, rfl⟩
  | eraseA c => exact Or.inl rfl
  | regOnce lid acts => exact Or.inl rfl
  | regOn lid acts => exact Or.inl rfl

theorem runAction_cur_serials (st : DState) (a : Action) :
    (runAction st a).cur.map (·.serial) = st.cur.map (·.serial) := by
  cases a with
  | eraseA c => exact eraseList_serials c st.cur
  | regOnce lid acts => rfl
  | regOn lid acts => rfl
  | setEvent v => rfl

theorem runActions_cur_serials (st : DState) (acts : List Action) :
    (runActions st acts).cur.map (·.serial) = st.cur.map (·.serial) := by
  induction acts generalizing st with
  | nil => rfl
  | cons a rest ih => rw [runActions, ih, runAction_cur_serials]

theorem visitOne_cur_serials (tgt : Tgt) (s : Nat) (st : DState) :
    (visitOne tgt s st).cur.map (·.serial) = st.cur.map (·.serial) := by
  unfold visitOne
  cases hl : lookupSerial s (st.readList tgt) with
  | none => rfl
  | some e =>
      by_cases ht : e.tomb
      · simp [ht]
      · simp [ht, runActions_cur_serials]

theorem visitL_cur_serials (tgt : Tgt) (st : DState) (snap : List Nat) :
    (visitL tgt st snap).cur.map (·.serial) = st.cur.map (·.serial) := by
  induction snap generalizing st with
  | nil => rfl
  | cons s rest ih => rw [visitL, ih, visitOne_cur_serials]

theorem liveCount_eraseList_le (s c : Nat) (l : List Element) :
    liveCount s (eraseList c l) ≤ liveCount s l := by
  unfold liveCount eraseList
  rw [List.countP_map]
  apply List.countP_mono_left
  intro e _ hp
  simp only [Function.comp, eraseElem] at hp
  split at hp
  · simp at hp
  · exact hp

theorem runAction_cur_live_le (s : Nat) (st : DState) (a : Action) :
    liveCount s (runAction st a).cur ≤ liveCount s st.cur := by
  cases a with
  | eraseA c => exact liveCount_eraseList_le s c st.cur
  | regOnce lid acts => exact Nat.le_refl _
  | regOn lid acts => exact Nat.le_refl _
  | setEvent v => exact Nat.le_refl _

theorem runActions_cur_live_le (s : Nat) (st : DState) (acts : List Action) :
    liveCount s (runActions st acts).cur ≤ liveCount s st.cur := by
  induction acts generalizing st with
  | nil => exact Nat.le_refl _
  | cons a rest ih =>
      rw [runActions]
      exact Nat.le_trans (ih _) (runAction_cur_live_le s st a)

theorem visitOne_cur_live_le (tgt : Tgt) (s s' : Nat) (st : DState) :
    liveCount s (visitOne tgt s' st).cur ≤ liveCount s st.cur := by
  unfold visitOne
  cases hl : lookupSerial s' (st.readList tgt) with
  | none => exact Nat.le_refl _
  | some e =>
      by_cases ht : e.tomb
      · simp only [ht, if_true]
        exact Nat.le_refl _
      · simp only [ht, Bool.false_eq_true, if_false]
        exact runActions_cur_live_le s _ e.acts

theorem visitL_cur_live_le (tgt : Tgt) (s : Nat) (st : DState) (snap : List Nat) :
    liveCount s (visitL tgt st snap).cur ≤ liveCount s st.cur := by
  induction snap generalizing st with
  | nil => exact Nat.le_refl _
  | cons s' rest ih =>
      rw [visitL]
      exact Nat.le_trans (ih _) (visitOne_cur_live_le tgt s s' st)

/-! ## Trace-count bounds for the dispatch passes -/

theorem countTr_append (s : Nat) (t1 t2 : List Inv) :
    countTr s (t1 ++ t2) = countTr s t1 + countTr s t2 :=
  List.countP_append _ _ _

theorem visitOne_countTr_le (tgt : Tgt) (s s' : Nat) (st : DState) :
    countTr s (visitOne tgt s' st).tr
      ≤ countTr s st.tr + (if s' == s then 1 else 0) := by
  unfold visitOne
  cases hl : lookupSerial s' (st.readList tgt) with
  | none => exact Nat.le_add_right _ _
  | some e =>
      by_cases ht : e.tomb
      · simp only [ht, if_true]
        exact Nat.le_add_right _ _
      · have hl' : List.find? (fun e => e.serial == s') (st.readList tgt) = some e := hl
        have hp := List.find?_some hl'
        have hser : e.serial = s' := eq_of_beq hp
        simp only [ht, Bool.false_eq_true, if_false]
        rw [runActions_tr, countTr_append]
        apply Nat.add_le_add_left
        unfold countTr
        rw [List.countP_cons, List.countP_nil, hser]
        simp

theorem visitL_countTr_le (tgt : Tgt) (s : Nat) (st : DState) (snap : List Nat) :
    countTr s (visitL tgt st snap).tr
      ≤ countTr s st.tr + snap.countP (· == s) := by
  induction snap generalizing st with
  | nil =>
      rw [visitL, List.countP_nil]
      exact Nat.le_refl _
  | cons s' rest ih =>
      rw [visitL, List.countP_cons]
      have h1 := ih (visitOne tgt s' st)
      have h2 := visitOne_countTr_le tgt s s' st
      omega

theorem visitOne_temp_dead_countTr (s s' : Nat) (st : DState)
    (hd : liveCount s st.cur = 0) :
    countTr s (visitOne .temp s' st).tr = countTr s st.tr := by
  unfold visitOne
  cases hl : lookupSerial s' (st.readList .temp) with
  | none => rfl
  | some e =>
      by_cases ht : e.tomb
      · simp only [ht, if_true]
      · have hl' : List.find? (fun e => e.serial == s') (st.readList .temp) = some e := hl
        have hmem : e ∈ st.cur := List.mem_of_find?_eq_some hl'
        have hne : ¬(e.serial == s && !e.tomb) = true :=
          (List.countP_eq_zero.mp hd) e hmem
        have hserne : (e.serial == s) = false := by
          cases hb : e.serial == s
          · rfl
          · exact absurd (by simp [hb, ht]) hne
        simp only [ht, Bool.false_eq_true, if_false]
        rw [runActions_tr, countTr_append]
        unfold countTr
        rw [List.countP_cons, List.countP_nil]
        simp [hserne]

theorem visitL_temp_dead_countTr (s : Nat) (st : DState) (snap : List Nat)
    (hd : liveCount s st.cur = 0) :
    countTr s (visitL .temp st snap).tr = countTr s st.tr := by
  induction snap generalizing st with
  | nil => rfl
  | cons s' rest ih =>
      rw [visitL]
      have hd' : liveCount s (visitOne .temp s' st).cur = 0 :=
        Nat.le_zero.mp (hd ▸ visitOne_cur_live_le .temp s s' st)
      rw [ih _ hd', visitOne_temp_dead_countTr s s' st hd]

/-! ## Dispatch of passive listeners: the ordering theorem -/

theorem lookup_mem {s : Nat} {l : List Element} {e : Element}
    (hl : lookupSerial s l = some e) : e ∈ l := by
  have hl' : List.find? (fun x => x.serial == s) l = some e := hl
  exact List.mem_of_find?_eq_some hl'

theorem lookup_serial_eq {s : Nat} {l : List Element} {e : Element}
    (hl : lookupSerial s l = some e) : e.serial = s := by
  have hl' : List.find? (fun x => x.serial == s) l = some e := hl
  have hp := List.find?_some hl'
  exact eq_of_beq hp

theorem lookup_self (L : List Element) (hnd : (L.map (·.serial)).Nodup) :
    ∀ e ∈ L, lookupSerial e.serial L = some e := by
  induction L with
  | nil => intro e he; cases he
  | cons a L' ih =>
      rw [List.map_cons, List.nodup_cons] at hnd
      intro e he
      rcases List.mem_cons.mp he with rfl | hmem
      · unfold lookupSerial
        exact List.find?_cons_of_pos _ (by simp)
      · unfold lookupSerial
        rw [List.find?_cons_of_neg]
        · exact ih hnd.2 e hmem
        · intro hb
          have hEq : a.serial = e.serial := eq_of_beq hb
          exact hnd.1 (hEq ▸ List.mem_map_of_mem (·.serial) hmem)

theorem readList_with_tr (st : DState) (x : List Inv) (tgt : Tgt) :
    ({ st with tr := x } : DState).readList tgt = st.readList tgt := by
  cases tgt <;> rfl

theorem visitL_passive (tgt : Tgt) (L : List Element) (st : DState)
    (M : List Element) (hL : st.readList tgt = L)
    (hp : ∀ e ∈ L, e.acts = [])
    (hM : ∀ e ∈ M, lookupSerial e.serial L = some e) :
    visitL tgt st (M.map (·.serial)) =
      { st with tr := st.tr ++ ((M.filter (fun e => !e.tomb)).map
          (fun e => ⟨e.serial, e.lid, st.ev⟩)) } := by
  induction M generalizing st with
  | nil => simp [visitL]
  | cons e M' ih =>
      have hl : lookupSerial e.serial L = some e := hM e (List.mem_cons_self e M')
      rw [List.map_cons, visitL, List.filter_cons]
      by_cases ht : e.tomb
      · have h1 : visitOne tgt e.serial st = st := by
          unfold visitOne
          rw [hL, hl]
          simp [ht]
        rw [h1, ht]
        simp only [Bool.not_true, Bool.false_eq_true, if_false]
        exact ih st hL (fun x hx => hM x (List.mem_cons_of_mem e hx))
      · have htf : e.tomb = false := by revert ht; cases e.tomb <;> simp
        have hacts : e.acts = [] := hp e (lookup_mem hl)
        have h1 : visitOne tgt e.serial st =
            { st with tr := st.tr ++ [⟨e.serial, e.lid, st.ev⟩] } := by
          unfold visitOne
          rw [hL, hl]
          simp [htf, hacts, runActions]
        rw [h1]
        have h2 := ih ({ st with tr := st.tr ++ [⟨e.serial, e.lid, st.ev⟩] } : DState)
          (by rw [readList_with_tr]; exact hL)
          (fun x hx => hM x (List.mem_cons_of_mem e hx))
        rw [h2, htf]
        simp [List.append_assoc]

theorem publish_passive_trace (h : Handler) (ev : Nat)
    (hp1 : passiveL h.onL) (hp2 : passiveL h.onceL)
    (hnd1 : (h.onL.map (·.serial)).Nodup) (hnd2 : (h.onceL.map (·.serial)).Nodup) :
    (h.publishH ev).2 =
      ((h.onL.reverse.filter (fun e => !e.tomb)).map
          (fun e => (⟨e.serial, e.lid, ev⟩ : Inv)))
        ++ ((h.onceL.reverse.filter (fun e => !e.tomb)).map
          (fun e => (⟨e.serial, e.lid, ev⟩ : Inv))) := by
  have hM1 : ∀ e ∈ h.onL.reverse, lookupSerial e.serial h.onL = some e :=
    fun e he => lookup_self h.onL hnd1 e (List.mem_reverse.mp he)
  have hM2 : ∀ e ∈ h.onceL.reverse, lookupSerial e.serial h.onceL = some e :=
    fun e he => lookup_self h.onceL hnd2 e (List.mem_reverse.mp he)
  simp only [Handler.publishH]
  rw [← List.map_reverse (fun x => x.serial) h.onL]
  have e1 := visitL_passive .pers h.onL
      (⟨{ h with onceL := [] }, h.onceL, ev, []⟩ : DState) h.onL.reverse rfl hp1 hM1
  rw [e1]
  dsimp only
  rw [← List.map_reverse (fun x => x.serial) h.onceL]
  have e2 := visitL_passive .temp h.onceL
      (⟨{ h with onceL := [] }, h.onceL, ev,
        [] ++ ((h.onL.reverse.filter (fun e => !e.tomb)).map
          (fun e => (⟨e.serial, e.lid, ev⟩ : Inv)))⟩ : DState)
      h.onceL.reverse rfl hp2 hM2
  rw [e2]
  simp

/-! ## The claims about dispatch ordering and mid-dispatch mutation -/

/-- C1: in a publish, all surviving persistent listeners are invoked before
any one-shot listener; persistent listeners fire in registration order,
which is the reverse of the storage order of the front-grown persistent
sequence, and one-shot listeners fire in reverse registration order, which
is the reverse of the storage order of the back-grown one-shot sequence.
Concretely (second conjunct): after registering persistent listeners labelled
1, 2, 3 in that order and one-shot listeners 4, 5 in that order, a publish
invokes 1, 2, 3, 5, 4, and a subsequent publish invokes only 1, 2, 3. -/
theorem c1_dispatch_order :
    (∀ (h : Handler) (ev : Nat), passiveL h.onL → passiveL h.onceL →
      (h.onL.map (·.serial)).Nodup → (h.onceL.map (·.serial)).Nodup →
      (h.publishH ev).2.map (·.lid) =
        ((h.onL.reverse.filter (fun e => !e.tomb)).map (·.lid))
          ++ ((h.onceL.reverse.filter (fun e => !e.tomb)).map (·.lid)))
    ∧ (((((Handler.init.onH 1 []).1.onH 2 []).1.onH 3 []).1.publishH 10).2.map (·.lid) = [1, 2, 3]
      ∧ (((((((Handler.init.onH 1 []).1.onH 2 []).1.onH 3 []).1.publishH 10).1.onceH 4 []).1.onceH 5 []).1.publishH 11).2.map (·.lid) = [1, 2, 3, 5, 4]
      ∧ ((((((((Handler.init.onH 1 []).1.onH 2 []).1.onH 3 []).1.publishH 10).1.onceH 4 []).1.onceH 5 []).1.publishH 11).1.publishH 12).2.map (·.lid) = [1, 2, 3]) := by
  constructor
  · intro h ev hp1 hp2 hnd1 hnd2
    rw [publish_passive_trace h ev hp1 hp2 hnd1 hnd2]
    simp only [List.map_append, List.map_map]
    rfl
  · exact ⟨by decide, by decide, by decide⟩

/-- Witness for C1's general conjunct at a concrete handler: one persistent
listener labelled 7, one one-shot listener labelled 8. -/
theorem c1_dispatch_order_witness :
    ((((Handler.init.onH 7 []).1.onceH 8 []).1.publishH 3).2.map (·.lid)) = [7, 8] := by
  have hgen := c1_dispatch_order.1 (((Handler.init.onH 7 []).1.onceH 8 []).1) 3
    (by intro e he
        have he' : e ∈ [(⟨0, false, 7, []⟩ : Element)] := he
        rw [List.mem_singleton] at he'
        subst he'; rfl)
    (by intro e he
        have he' : e ∈ [(⟨1, false, 8, []⟩ : Element)] := he
        rw [List.mem_singleton] at he'
        subst he'; rfl)
    (by decide) (by decide)
  rw [hgen]
  decide

/-- C3: `publish` moves the whole one-shot sequence into a private temporary
before any listener runs, so a `once` registration made by a listener during
that publish is not invoked in the same publish call; it remains pending in
the live one-shot sequence and is invoked on the next publish of the same
event type.  Scenario: persistent listener `idP` performs `regOnce idQ`
during dispatch. -/
theorem c3_once_during_publish_deferred (idP idQ ev1 ev2 : Nat) :
    (((Handler.init.onH idP [.regOnce idQ []]).1.publishH ev1).2 = [⟨0, idP, ev1⟩])
    ∧ (((Handler.init.onH idP [.regOnce idQ []]).1.publishH ev1).1.onceL
        = [⟨1, false, idQ, []⟩])
    ∧ ((((Handler.init.onH idP [.regOnce idQ []]).1.publishH ev1).1.publishH ev2).2
        = [⟨0, idP, ev2⟩, ⟨1, idQ, ev2⟩]) :=
  ⟨rfl, rfl, rfl⟩

/-- C4: erasing a not-yet-visited persistent listener from within an earlier
listener's callback prevents it from firing in the current publish (the
tombstone is checked at visit time), and the entry is physically removed from
the persistent sequence by the end of that publish call.  Scenario:
persistent `idA` (registered first, visited first) erases the connection of
persistent `idC` (serial 1) mid-dispatch. -/
theorem c4_mid_dispatch_erase (idA idC ev : Nat) :
    ((((Handler.init.onH idA [.eraseA 1]).1.onH idC []).1.publishH ev).2
        = [⟨0, idA, ev⟩])
    ∧ ((((Handler.init.onH idA [.eraseA 1]).1.onH idC []).1.publishH ev).1.onL
        = [⟨0, false, idA, [.eraseA 1]⟩]) :=
  ⟨rfl, rfl⟩

/-- C8: all listeners of one publish share the single event instance, so a
mutation made by an earlier listener is seen by every later listener of the
same dispatch, across both the persistent and the one-shot pass.  Scenario:
persistent `id1` sets the payload to `v`; persistent `id2` and one-shot
`id3`, invoked after it, both observe `v` (for every `v` and every initial
payload `ev0`). -/
theorem c8_shared_event_instance (v ev0 id1 id2 id3 : Nat) :
    ((((Handler.init.onH id1 [.setEvent v]).1.onH id2 []).1.onceH id3
        []).1.publishH ev0).2
      = [⟨0, id1, ev0⟩, ⟨1, id2, v⟩, ⟨2, id3, v⟩] :=
  rfl

/-- C10: a persistent listener registered via `on` from within a callback
during a publish of the same event type is not invoked during that publish
(`on` inserts at the front while the traversal proceeds in reverse toward the
fixed old front), and it is invoked starting with the next publish.
Scenario: persistent `idA` performs `regOn idB` during dispatch. -/
theorem c10_on_during_publish_deferred (idA idB ev1 ev2 : Nat) :
    (((Handler.init.onH idA [.regOn idB []]).1.publishH ev1).2 = [⟨0, idA, ev1⟩])
    ∧ (((Handler.init.onH idA [.regOn idB []]).1.publishH ev1).1.onL
        = [⟨1, false, idB, []⟩, ⟨0, false, idA, [.regOn idB []]⟩])
    ∧ ((((Handler.init.onH idA [.regOn idB []]).1.publishH ev1).1.publishH ev2).2
        = [⟨0, idA, ev2⟩, ⟨1, idB, ev2⟩]) :=
  ⟨rfl, rfl, rfl⟩

/-! ## Registry (handler storage) lemmas -/

theorem getD_append_replicate (l : List (Option Handler)) (k i : Nat) :
    (l ++ List.replicate k (none : Option Handler)).getD i none = l.getD i none := by
  rw [List.getD_eq_getElem?_getD, List.getD_eq_getElem?_getD, List.getElem?_append]
  split
  · rfl
  · rename_i hge
    rw [List.getElem?_eq_none (Nat.le_of_not_lt hge), List.getElem?_replicate]
    split <;> rfl

theorem getD_set_self (l : List (Option Handler)) (i : Nat) (v : Option Handler)
    (hi : i < l.length) : (l.set i v).getD i none = v := by
  rw [List.getD_eq_getElem?_getD, List.getElem?_set_self hi]
  rfl

theorem getD_set_other (l : List (Option Handler)) (i j : Nat) (v : Option Handler)
    (hij : i ≠ j) : (l.set i v).getD j none = l.getD j none := by
  rw [List.getD_eq_getElem?_getD, List.getElem?_set_ne hij, ← List.getD_eq_getElem?_getD]

theorem slot_some_lt {e : Emitter} {t : Nat} {h : Handler} (hs : e.slot t = some h) :
    t < e.handlers.length := by
  by_contra hlt
  unfold Emitter.slot at hs
  rw [List.getD_eq_getElem?_getD, List.getElem?_eq_none (Nat.le_of_not_lt hlt)] at hs
  cases hs

theorem slot_none_of_ge {e : Emitter} {t : Nat} (hge : ¬ t < e.handlers.length) :
    e.slot t = none := by
  unfold Emitter.slot
  rw [List.getD_eq_getElem?_getD, List.getElem?_eq_none (Nat.le_of_not_lt hge)]
  rfl

theorem handlerE_of_none {e : Emitter} {t : Nat} (hnone : e.slot t = none) :
    e.handlerE t = ⟨(if t < e.handlers.length then e.handlers
        else e.handlers ++ List.replicate (t + 1 - e.handlers.length) none).set t
          (some Handler.init)⟩ := by
  have hnone2 : (if t < e.handlers.length then e.handlers
      else e.handlers ++ List.replicate (t + 1 - e.handlers.length)
        (none : Option Handler)).getD t none = none := by
    by_cases hlt : t < e.handlers.length
    · rw [if_pos hlt]; exact hnone
    · rw [if_neg hlt, getD_append_replicate]; exact hnone
  simp only [Emitter.handlerE]
  rw [hnone2]

theorem handlerE_of_some {e : Emitter} {t : Nat} {h : Handler}
    (hs : e.slot t = some h) : e.handlerE t = e := by
  have hlt := slot_some_lt hs
  have hs2 : (if t < e.handlers.length then e.handlers
      else e.handlers ++ List.replicate (t + 1 - e.handlers.length)
        (none : Option Handler)).getD t none = some h := by
    rw [if_pos hlt]; exact hs
  simp only [Emitter.handlerE]
  rw [hs2, if_pos hlt]

theorem length_handlerE_lt {e : Emitter} {t : Nat} (hlt : t < e.handlers.length) :
    (e.handlerE t).handlers.length = e.handlers.length := by
  cases hs : e.slot t with
  | none => rw [handlerE_of_none hs]; simp [hlt]
  | some h => rw [handlerE_of_some hs]

theorem length_handlerE_ge {e : Emitter} {t : Nat} (hge : ¬ t < e.handlers.length) :
    (e.handlerE t).handlers.length = t + 1 := by
  rw [handlerE_of_none (slot_none_of_ge hge)]
  simp only [List.length_set]
  rw [if_neg hge, List.length_append, List.length_replicate]
  omega

theorem t_lt_length_handlerE (e : Emitter) (t : Nat) :
    t < (e.handlerE t).handlers.length := by
  by_cases hlt : t < e.handlers.length
  · rw [length_handlerE_lt hlt]; exact hlt
  · rw [length_handlerE_ge hlt]; exact Nat.lt_succ_self t

theorem slot_handlerE_self (e : Emitter) (t : Nat) :
    (e.handlerE t).slot t = some ((e.slot t).getD Handler.init) := by
  cases hs : e.slot t with
  | none =>
      rw [handlerE_of_none hs]
      show (_ : List (Option Handler)).getD t none = _
      rw [getD_set_self]
      · rfl
      · by_cases hlt : t < e.handlers.length
        · rw [if_pos hlt]; exact hlt
        · rw [if_neg hlt, List.length_append, List.length_replicate]
          omega
  | some hh => rw [handlerE_of_some hs, hs]; rfl

theorem slot_handlerE_other (e : Emitter) {t j : Nat} (hne : t ≠ j) :
    (e.handlerE t).slot j = e.slot j := by
  cases hs : e.slot t with
  | none =>
      rw [handlerE_of_none hs]
      show (_ : List (Option Handler)).getD j none = _
      rw [getD_set_other _ _ _ _ hne]
      by_cases hlt : t < e.handlers.length
      · rw [if_pos hlt]; rfl
      · rw [if_neg hlt]
        exact getD_append_replicate e.handlers _ j
  | some hh => rw [handlerE_of_some hs]

theorem refH_eq (e : Emitter) (t : Nat) :
    e.refH t = (e.slot t).getD Handler.init := by
  unfold Emitter.refH
  rw [slot_handlerE_self]
  rfl

theorem refH_of_some {e : Emitter} {t : Nat} {h : Handler}
    (hs : e.slot t = some h) : e.refH t = h := by
  rw [refH_eq, hs]
  rfl

theorem slot_update_self (e : Emitter) (t : Nat) (nh : Handler) :
    (⟨(e.handlerE t).handlers.set t (some nh)⟩ : Emitter).slot t = some nh := by
  show (_ : List (Option Handler)).getD t none = _
  exact getD_set_self _ _ _ (t_lt_length_handlerE e t)

theorem slot_update_other (e : Emitter) {t j : Nat} (hne : t ≠ j) (nh : Handler) :
    (⟨(e.handlerE t).handlers.set t (some nh)⟩ : Emitter).slot j = e.slot j := by
  show (_ : List (Option Handler)).getD j none = _
  rw [getD_set_other _ _ _ _ hne]
  exact slot_handlerE_other e hne

theorem slot_clearAllE (e : Emitter) (t : Nat) :
    (e.clearAllE).slot t = (e.slot t).map Handler.clearH := by
  unfold Emitter.clearAllE Emitter.slot
  rw [List.getD_eq_getElem?_getD, List.getD_eq_getElem?_getD, List.getElem?_map]
  cases e.handlers[t]? <;> rfl

/-! ## Emptiness, clear, and the registry claims -/

theorem emptyQ_iff (h : Handler) :
    h.emptyQ = true ↔ (∀ el ∈ h.onceL, el.tomb = true)
      ∧ (∀ el ∈ h.onL, el.tomb = true) := by
  unfold Handler.emptyQ
  rw [Bool.and_eq_true, List.all_eq_true, List.all_eq_true]

theorem clearH_onceL_tomb (h : Handler) : ∀ el ∈ h.clearH.onceL, el.tomb = true := by
  intro el hel
  unfold Handler.clearH at hel
  rcases List.mem_map.mp hel with ⟨x, hx, rfl⟩
  rfl

theorem clearH_onL_tomb (h : Handler) : ∀ el ∈ h.clearH.onL, el.tomb = true := by
  intro el hel
  unfold Handler.clearH at hel
  rcases List.mem_map.mp hel with ⟨x, hx, rfl⟩
  rfl

theorem clearH_emptyQ (h : Handler) : h.clearH.emptyQ = true :=
  (emptyQ_iff _).mpr ⟨clearH_onceL_tomb h, clearH_onL_tomb h⟩

theorem clearAllE_emptyAll (e : Emitter) : (e.clearAllE).emptyAll = true := by
  unfold Emitter.clearAllE Emitter.emptyAll
  rw [List.all_map, List.all_eq_true]
  intro oh _
  cases oh with
  | none => rfl
  | some h => exact clearH_emptyQ h

theorem foldl_map_comm (g : Nat → Element → Element) (S : List Nat) (l : List Element) :
    S.foldl (fun acc c => acc.map (g c)) l
      = l.map (fun a => S.foldl (fun x c => g c x) a) := by
  induction S generalizing l with
  | nil => simp
  | cons c S' ih =>
      rw [List.foldl_cons, ih, List.map_map]
      rfl

theorem foldl_eraseElem (S : List Nat) (e : Element) :
    S.foldl (fun x c => eraseElem c x) e =
      if e.serial ∈ S then { e with tomb := true } else e := by
  induction S generalizing e with
  | nil => simp
  | cons c S' ih =>
      rw [List.foldl_cons]
      by_cases hc : e.serial = c
      · have h1 : eraseElem c e = { e with tomb := true } := by
          unfold eraseElem; rw [if_pos hc]
        have hmem : e.serial ∈ c :: S' := List.mem_cons.mpr (Or.inl hc)
        rw [h1, ih, if_pos hmem]
        split <;> rfl
      · have h1 : eraseElem c e = e := by
          unfold eraseElem; rw [if_neg hc]
        rw [h1, ih]
        simp [List.mem_cons, hc]

theorem foldl_eraseList_all (S : List Nat) (l : List Element)
    (hall : ∀ el ∈ l, el.serial ∈ S) :
    S.foldl (fun acc c => eraseList c acc) l
      = l.map (fun e => { e with tomb := true }) := by
  have h1 : S.foldl (fun acc c => eraseList c acc) l
      = l.map (fun a => S.foldl (fun x c => eraseElem c x) a) :=
    foldl_map_comm eraseElem S l
  rw [h1]
  exact List.map_congr_left
    (fun a ha => by rw [foldl_eraseElem, if_pos (hall a ha)])

theorem foldl_eraseH (h : Handler) (S : List Nat) :
    S.foldl Handler.eraseH h =
      { h with onceL := S.foldl (fun l c => eraseList c l) h.onceL,
               onL := S.foldl (fun l c => eraseList c l) h.onL } := by
  induction S generalizing h with
  | nil => rfl
  | cons c S' ih =>
      rw [List.foldl_cons, ih]
      rfl

theorem clearH_eq_erase_all (h : Handler) :
    h.clearH = ((h.onceL.map (·.serial)) ++ (h.onL.map (·.serial))).foldl
      Handler.eraseH h := by
  have e1 := foldl_eraseList_all ((h.onceL.map (·.serial)) ++ (h.onL.map (·.serial)))
      h.onceL (fun el hel => List.mem_append.mpr (Or.inl (List.mem_map_of_mem _ hel)))
  have e2 := foldl_eraseList_all ((h.onceL.map (·.serial)) ++ (h.onL.map (·.serial)))
      h.onL (fun el hel => List.mem_append.mpr (Or.inr (List.mem_map_of_mem _ hel)))
  rw [foldl_eraseH, e1, e2]
  rfl

theorem publishH_no_listeners (h : Handler) (ev : Nat)
    (h1 : h.onceL = []) (h2 : h.onL = []) :
    h.publishH ev = ({ h with onceL := [], onL := [] }, []) := by
  simp only [Handler.publishH]
  rw [h1, h2]
  simp [visitL]

theorem emptyForType_of_some_emptyQ {e : Emitter} {t : Nat} {h : Handler}
    (hs : e.slot t = some h) (hq : h.emptyQ = true) :
    e.emptyForType t = true := by
  unfold Emitter.emptyForType
  have hs' : e.handlers.getD t none = some h := hs
  rw [hs']
  simp [hq]

/-- C5: `empty<E>()` is true exactly when every entry of both of `E`'s
sequences is tombstoned, or `E` was never touched: its id is beyond the
storage vector, or its slot holds no handler. -/
theorem c5_empty_iff (e : Emitter) (t : Nat) :
    e.emptyForType t = true ↔
      (e.handlers.length ≤ t ∨ e.slot t = none ∨
        ∃ h, e.slot t = some h ∧ (∀ el ∈ h.onceL, el.tomb = true)
          ∧ (∀ el ∈ h.onL, el.tomb = true)) := by
  unfold Emitter.emptyForType
  cases hs : e.handlers.getD t none with
  | none =>
      have hs' : e.slot t = none := hs
      simp [hs']
  | some h =>
      have hs' : e.slot t = some h := hs
      have hlt : t < e.handlers.length := slot_some_lt hs'
      have hnle : ¬ e.handlers.length ≤ t := Nat.not_le.mpr hlt
      simp [hs', hlt, hnle, emptyQ_iff]

theorem slot_after_update {e : Emitter} {t : Nat} {h : Handler}
    (hs : e.slot t = some h) (t' : Nat) (nh : Handler) :
    ∃ h', ((⟨(e.handlerE t').handlers.set t' (some nh)⟩ : Emitter)).slot t = some h' := by
  by_cases hq : t' = t
  · subst hq
    exact ⟨nh, slot_update_self e t' nh⟩
  · exact ⟨h, by rw [slot_update_other e hq nh]; exact hs⟩

theorem step_slot_some {e : Emitter} {t : Nat} {h : Handler}
    (hs : e.slot t = some h) (op : Op) :
    ∃ h', ((step e op).1).slot t = some h' := by
  cases op with
  | onceO t' lid acts => exact slot_after_update hs t' _
  | onO t' lid acts => exact slot_after_update hs t' _
  | eraseO t' c => exact slot_after_update hs t' _
  | clearO t' => exact slot_after_update hs t' _
  | clearAllO =>
      refine ⟨h.clearH, ?_⟩
      rw [show (step e .clearAllO).1 = e.clearAllE from rfl, slot_clearAllE, hs]
      rfl
  | publishO t' ev => exact slot_after_update hs t' _

/-- C6: the registry `handler<E>()` grows the storage to exactly `id + 1`
slots when too short (no doubling), fills the new slots empty, constructs the
handler at first access, is a no-op when the slot is already populated, and
no emitter operation ever removes a populated slot. -/
theorem c6_registry :
    (∀ (e : Emitter) (t : Nat), ¬ t < e.handlers.length →
      (e.handlerE t).handlers.length = t + 1)
    ∧ (∀ (e : Emitter) (t : Nat), t < e.handlers.length →
      (e.handlerE t).handlers.length = e.handlers.length)
    ∧ (∀ (e : Emitter) (t j : Nat), e.handlers.length ≤ j → j < t →
      (e.handlerE t).slot j = none)
    ∧ (∀ (e : Emitter) (t : Nat),
      (e.handlerE t).slot t = some ((e.slot t).getD Handler.init))
    ∧ (∀ (e : Emitter) (t : Nat) (h : Handler), e.slot t = some h →
      e.handlerE t = e)
    ∧ (∀ (e : Emitter) (op : Op) (t : Nat) (h : Handler), e.slot t = some h →
      ∃ h', ((step e op).1).slot t = some h') := by
  refine ⟨fun e t hge => length_handlerE_ge hge,
    fun e t hlt => length_handlerE_lt hlt, ?_,
    fun e t => slot_handlerE_self e t,
    fun e t h hs => handlerE_of_some hs,
    fun e op t h hs => step_slot_some hs op⟩
  intro e t j hle hjt
  have hne : t ≠ j := by omega
  have hnone : e.slot t = none := slot_none_of_ge (by omega)
  rw [handlerE_of_none hnone]
  show (_ : List (Option Handler)).getD j none = _
  rw [getD_set_other _ _ _ _ hne, if_neg (by omega), getD_append_replicate]
  exact slot_none_of_ge (by omega)

/-- Witness for C6: growth of the fresh emitter to slot 2 (three slots, the
intermediate slot left empty, slot 2 populated), and no-op / persistence on an
emitter whose slot 0 already holds a handler with one one-shot listener. -/
theorem c6_registry_witness :
    ((Emitter.initE.handlerE 2).handlers.length = 3)
    ∧ (((Emitter.initE.onceE 0 5 []).1.handlerE 0).handlers.length
        = (Emitter.initE.onceE 0 5 []).1.handlers.length)
    ∧ ((Emitter.initE.handlerE 2).slot 1 = none)
    ∧ ((Emitter.initE.handlerE 2).slot 2 = some ((Emitter.initE.slot 2).getD Handler.init))
    ∧ ((Emitter.initE.onceE 0 5 []).1.handlerE 0 = (Emitter.initE.onceE 0 5 []).1)
    ∧ (∃ h', ((step (Emitter.initE.onceE 0 5 []).1 (Op.publishO 0 3)).1).slot 0
        = some h') :=
  ⟨c6_registry.1 Emitter.initE 2 (by decide),
   c6_registry.2.1 (Emitter.initE.onceE 0 5 []).1 0 (by decide),
   c6_registry.2.2.1 Emitter.initE 2 1 (by decide) (by decide),
   c6_registry.2.2.2.1 Emitter.initE 2,
   c6_registry.2.2.2.2.1 (Emitter.initE.onceE 0 5 []).1 0 ⟨[⟨0, false, 5, []⟩], [], 1⟩ rfl,
   c6_registry.2.2.2.2.2 (Emitter.initE.onceE 0 5 []).1 (Op.publishO 0 3) 0
     ⟨[⟨0, false, 5, []⟩], [], 1⟩ rfl⟩

/-- C7: `clear` tombstones every entry of both sequences and coincides with
erasing every connection of the event type one by one; `clearAll` applies
`clear` to every slot ever touched, and afterwards the overall `empty()` is
true on any emitter state. -/
theorem c7_clear_clearAll :
    (∀ h : Handler, (∀ el ∈ h.clearH.onceL, el.tomb = true)
      ∧ (∀ el ∈ h.clearH.onL, el.tomb = true))
    ∧ (∀ h : Handler, h.clearH
        = ((h.onceL.map (·.serial)) ++ (h.onL.map (·.serial))).foldl Handler.eraseH h)
    ∧ (∀ (e : Emitter) (t : Nat), (e.clearAllE).slot t = (e.slot t).map Handler.clearH)
    ∧ (∀ e : Emitter, (e.clearAllE).emptyAll = true) :=
  ⟨fun h => ⟨clearH_onceL_tomb h, clearH_onL_tomb h⟩,
    clearH_eq_erase_all, slot_clearAllE, clearAllE_emptyAll⟩

/-- C9: an event type on which no listener was ever registered is empty, its
publish performs no visible work (empty trace, still empty afterwards), and
querying or erasing it succeeds with the emitter still empty for that type
(storage being created lazily rather than failing). -/
theorem c9_untouched_type (e : Emitter) (t : Nat)
    (hno : ∀ h, e.slot t = some h → h.onceL = [] ∧ h.onL = []) :
    e.emptyForType t = true
    ∧ (∀ ev, (e.publishE t ev).2 = [])
    ∧ (∀ ev, ((e.publishE t ev).1).emptyForType t = true)
    ∧ (∀ c, ((e.eraseE t c).emptyForType t = true))
    ∧ ((e.clearE t).emptyForType t = true) := by
  have href : (e.refH t).onceL = [] ∧ (e.refH t).onL = [] := by
    rw [refH_eq]
    cases hs : e.slot t with
    | none => exact ⟨rfl, rfl⟩
    | some h => exact hno h hs
  have hq0 : ∀ h0 : Handler, h0.onceL = [] → h0.onL = [] → h0.emptyQ = true := by
    intro h0 ha hb
    rw [emptyQ_iff, ha, hb]
    exact ⟨fun el hel => absurd hel (List.not_mem_nil el),
      fun el hel => absurd hel (List.not_mem_nil el)⟩
  refine ⟨?_, ?_, ?_, ?_, ?_⟩
  · cases hs : e.slot t with
    | none =>
        unfold Emitter.emptyForType
        have hs' : e.handlers.getD t none = none := hs
        rw [hs']
        simp
    | some h =>
        exact emptyForType_of_some_emptyQ hs (hq0 h (hno h hs).1 (hno h hs).2)
  · intro ev
    show ((e.refH t).publishH ev).2 = []
    rw [publishH_no_listeners _ ev href.1 href.2]
  · intro ev
    have hslot : ((e.publishE t ev).1).slot t
        = some ((e.refH t).publishH ev).1 := by
      show ((⟨(e.handlerE t).handlers.set t _⟩ : Emitter)).slot t = _
      exact slot_update_self e t _
    rw [publishH_no_listeners _ ev href.1 href.2] at hslot
    exact emptyForType_of_some_emptyQ hslot (hq0 _ rfl rfl)
  · intro c
    have hslot : ((e.eraseE t c)).slot t = some ((e.refH t).eraseH c) :=
      slot_update_self e t _
    have hq : ((e.refH t).eraseH c).emptyQ = true := by
      apply hq0
      · show eraseList c (e.refH t).onceL = []
        rw [href.1]; rfl
      · show eraseList c (e.refH t).onL = []
        rw [href.2]; rfl
    exact emptyForType_of_some_emptyQ hslot hq
  · have hslot : ((e.clearE t)).slot t = some ((e.refH t).clearH) :=
      slot_update_self e t _
    exact emptyForType_of_some_emptyQ hslot (clearH_emptyQ _)

/-- Witness for C9 at the fresh emitter and event type 4. -/
theorem c9_untouched_type_witness :
    Emitter.initE.emptyForType 4 = true
    ∧ (Emitter.initE.publishE 4 9).2 = []
    ∧ ((Emitter.initE.publishE 4 9).1).emptyForType 4 = true
    ∧ (Emitter.initE.eraseE 4 0).emptyForType 4 = true
    ∧ (Emitter.initE.clearE 4).emptyForType 4 = true := by
  have hc := c9_untouched_type Emitter.initE 4 (fun h hh => nomatch hh)
  exact ⟨hc.1, hc.2.1 9, hc.2.2.1 9, hc.2.2.2.1 0, hc.2.2.2.2⟩

/-! ## Invariants carried through one dispatch -/

theorem mem_eraseList {c : Nat} {l : List Element} {e' : Element}
    (he : e' ∈ eraseList c l) : ∃ x ∈ l, e'.serial = x.serial := by
  rcases List.mem_map.mp he with ⟨x, hx, rfl⟩
  exact ⟨x, hx, eraseElem_serial c x⟩

theorem runAction_SJh {s : Nat} {st : DState} (hS : SJh s st.h) (a : Action) :
    SJh s (runAction st a).h := by
  obtain ⟨h1, h2, h3⟩ := hS
  cases a with
  | eraseA c =>
      refine ⟨h1, ?_, ?_⟩
      · intro e' he
        rcases mem_eraseList he with ⟨x, hx, hser⟩
        rw [hser]; exact h2 x hx
      · intro e' he
        rcases mem_eraseList he with ⟨x, hx, hser⟩
        rw [hser]; exact h3 x hx
  | regOnce lid acts =>
      refine ⟨Nat.lt_succ_of_lt h1, h2, ?_⟩
      intro e' he
      rcases List.mem_append.mp he with hx | hx
      · exact h3 e' hx
      · rw [List.mem_singleton] at hx
        subst hx
        exact Nat.ne_of_gt h1
  | regOn lid acts =>
      refine ⟨Nat.lt_succ_of_lt h1, ?_, h3⟩
      intro e' he
      rcases List.mem_cons.mp he with hx | hx
      · subst hx; exact Nat.ne_of_gt h1
      · exact h2 e' hx
  | setEvent v => exact ⟨h1, h2, h3⟩

theorem runActions_SJh {s : Nat} {st : DState} (hS : SJh s st.h) (acts : List Action) :
    SJh s (runActions st acts).h := by
  induction acts generalizing st with
  | nil => exact hS
  | cons a rest ih => exact ih (runAction_SJh hS a)

theorem visitOne_SJh {s : Nat} (tgt : Tgt) (s' : Nat) {st : DState} (hS : SJh s st.h) :
    SJh s (visitOne tgt s' st).h := by
  unfold visitOne
  cases hl : lookupSerial s' (st.readList tgt) with
  | none => exact hS
  | some e =>
      by_cases ht : e.tomb
      · simp only [ht, if_true]; exact hS
      · simp only [ht, Bool.false_eq_true, if_false]
        have hS' : SJh s ({ st with tr := st.tr ++ [⟨e.serial, e.lid, st.ev⟩] } : DState).h := hS
        exact runActions_SJh hS' e.acts

theorem visitL_SJh {s : Nat} (tgt : Tgt) {st : DState} (hS : SJh s st.h)
    (snap : List Nat) : SJh s (visitL tgt st snap).h := by
  induction snap generalizing st with
  | nil => exact hS
  | cons s' rest ih => exact ih (visitOne_SJh tgt s' hS)

theorem runAction_WFd {st : DState} (hW : st.WFd) (a : Action) :
    (runAction st a).WFd := by
  obtain ⟨w1, w2, w3⟩ := hW
  cases a with
  | eraseA c =>
      refine ⟨?_, ?_, ?_⟩ <;> intro e' he
      · rcases mem_eraseList he with ⟨x, hx, hser⟩
        rw [hser]; exact w1 x hx
      · rcases mem_eraseList he with ⟨x, hx, hser⟩
        rw [hser]; exact w2 x hx
      · rcases mem_eraseList he with ⟨x, hx, hser⟩
        rw [hser]; exact w3 x hx
  | regOnce lid acts =>
      refine ⟨?_, ?_, ?_⟩ <;> intro e' he
      · rcases List.mem_append.mp he with hx | hx
        · exact Nat.lt_succ_of_lt (w1 e' hx)
        · rw [List.mem_singleton] at hx
          subst hx
          exact Nat.lt_succ_self _
      · exact Nat.lt_succ_of_lt (w2 e' he)
      · exact Nat.lt_succ_of_lt (w3 e' he)
  | regOn lid acts =>
      refine ⟨?_, ?_, ?_⟩ <;> intro e' he
      · exact Nat.lt_succ_of_lt (w1 e' he)
      · rcases List.mem_cons.mp he with hx | hx
        · subst hx; exact Nat.lt_succ_self _
        · exact Nat.lt_succ_of_lt (w2 e' hx)
      · exact Nat.lt_succ_of_lt (w3 e' he)
  | setEvent v => exact ⟨w1, w2, w3⟩

theorem runActions_WFd {st : DState} (hW : st.WFd) (acts : List Action) :
    (runActions st acts).WFd := by
  induction acts generalizing st with
  | nil => exact hW
  | cons a rest ih => exact ih (runAction_WFd hW a)

theorem visitOne_WFd (tgt : Tgt) (s' : Nat) {st : DState} (hW : st.WFd) :
    (visitOne tgt s' st).WFd := by
  unfold visitOne
  cases hl : lookupSerial s' (st.readList tgt) with
  | none => exact hW
  | some e =>
      by_cases ht : e.tomb
      · simp only [ht, if_true]; exact hW
      · simp only [ht, Bool.false_eq_true, if_false]
        have hW' : ({ st with tr := st.tr ++ [⟨e.serial, e.lid, st.ev⟩] } : DState).WFd := hW
        exact runActions_WFd hW' e.acts

theorem visitL_WFd (tgt : Tgt) {st : DState} (hW : st.WFd) (snap : List Nat) :
    (visitL tgt st snap).WFd := by
  induction snap generalizing st with
  | nil => exact hW
  | cons s' rest ih => exact ih (visitOne_WFd tgt s' hW)

theorem publishH_WFh {h : Handler} (hW : h.WFh) (ev : Nat) :
    ((h.publishH ev).1).WFh := by
  have hW0 : (⟨{ h with onceL := [] }, h.onceL, ev, []⟩ : DState).WFd :=
    ⟨fun e he => absurd he (List.not_mem_nil e), hW.2, hW.1⟩
  have hW1 := visitL_WFd .pers hW0 ((h.onL.map (·.serial)).reverse)
  have hW2 := visitL_WFd .temp hW1
      (((visitL .pers (⟨{ h with onceL := [] }, h.onceL, ev, []⟩ : DState)
        ((h.onL.map (·.serial)).reverse)).cur.map (·.serial)).reverse)
  exact ⟨hW2.1, fun e he => hW2.2.1 e (List.mem_filter.mp he).1⟩

/-! ## The fire-at-most-once bound, operation by operation -/

theorem countP_serial_eq_eraseList (s c : Nat) (l : List Element) :
    (eraseList c l).countP (fun e => e.serial == s)
      = l.countP (fun e => e.serial == s) := by
  induction l with
  | nil => rfl
  | cons x l' ih =>
      show (eraseElem c x :: eraseList c l').countP _ = _
      rw [List.countP_cons, List.countP_cons, ih, eraseElem_serial]

theorem Jh_onceH {s : Nat} {h : Handler} (hJ : Jh s h) (lid : Nat) (acts : List Action) :
    Jh s ((h.onceH lid acts).1) ∧ Blive s ((h.onceH lid acts).1) = Blive s h := by
  obtain ⟨h1, h2, h3⟩ := hJ
  have hfresh : (h.nextSerial == s) = false := by
    cases hb : h.nextSerial == s
    · rfl
    · exact absurd (eq_of_beq hb).symm (Nat.ne_of_lt h1)
  constructor
  · refine ⟨Nat.lt_succ_of_lt h1, h2, ?_⟩
    show (h.onceL ++ [(⟨h.nextSerial, false, lid, acts⟩ : Element)]).countP (fun e => e.serial == s) ≤ 1
    rw [List.countP_append, List.countP_cons, List.countP_nil]
    simp only [hfresh]
    simpa using h3
  · show liveCount s (h.onceL ++ [(⟨h.nextSerial, false, lid, acts⟩ : Element)]) = liveCount s h.onceL
    unfold liveCount
    rw [List.countP_append, List.countP_cons, List.countP_nil]
    simp [hfresh]

theorem Jh_onH {s : Nat} {h : Handler} (hJ : Jh s h) (lid : Nat) (acts : List Action) :
    Jh s ((h.onH lid acts).1) ∧ Blive s ((h.onH lid acts).1) = Blive s h := by
  obtain ⟨h1, h2, h3⟩ := hJ
  refine ⟨⟨Nat.lt_succ_of_lt h1, ?_, h3⟩, rfl⟩
  intro e' he
  rcases List.mem_cons.mp he with hx | hx
  · subst hx; exact Nat.ne_of_gt h1
  · exact h2 e' hx

theorem Jh_eraseH {s : Nat} {h : Handler} (hJ : Jh s h) (c : Nat) :
    Jh s (h.eraseH c) ∧ Blive s (h.eraseH c) ≤ Blive s h := by
  obtain ⟨h1, h2, h3⟩ := hJ
  refine ⟨⟨h1, ?_, ?_⟩, liveCount_eraseList_le s c h.onceL⟩
  · intro e' he
    rcases mem_eraseList he with ⟨x, hx, hser⟩
    rw [hser]; exact h2 x hx
  · show (eraseList c h.onceL).countP (fun e => e.serial == s) ≤ 1
    rw [countP_serial_eq_eraseList]
    exact h3

theorem Blive_eraseH_self (s : Nat) (h : Handler) : Blive s (h.eraseH s) = 0 := by
  show liveCount s (eraseList s h.onceL) = 0
  unfold liveCount
  rw [List.countP_eq_zero]
  intro e' he
  rcases List.mem_map.mp he with ⟨x, hx, rfl⟩
  unfold eraseElem
  by_cases hc : x.serial = s
  · rw [if_pos hc]
    simp
  · rw [if_neg hc]
    simp [hc]

theorem Jh_clearH {s : Nat} {h : Handler} (hJ : Jh s h) :
    Jh s h.clearH ∧ Blive s h.clearH = 0 := by
  obtain ⟨h1, h2, h3⟩ := hJ
  constructor
  · refine ⟨h1, ?_, ?_⟩
    · intro e' he
      rcases List.mem_map.mp he with ⟨x, hx, rfl⟩
      exact h2 x hx
    · show (h.onceL.map (fun e => { e with tomb := true })).countP
        (fun e => e.serial == s) ≤ 1
      rw [List.countP_map]
      exact h3
  · show liveCount s (h.onceL.map (fun e => { e with tomb := true })) = 0
    unfold liveCount
    rw [List.countP_eq_zero]
    intro e' he
    rcases List.mem_map.mp he with ⟨x, hx, rfl⟩
    simp

theorem twopass_countTr_le (s : Nat) (st0 : DState) (snapP snapT : List Nat)
    (htr : countTr s st0.tr = 0)
    (hsnapP : snapP.countP (· == s) = 0)
    (hsnapT : snapT.countP (· == s) ≤ 1) :
    countTr s (visitL .temp (visitL .pers st0 snapP) snapT).tr
      ≤ liveCount s st0.cur := by
  have hb1 := visitL_countTr_le .pers s st0 snapP
  rw [hsnapP, htr] at hb1
  by_cases hlive : liveCount s st0.cur = 0
  · have hdead1 : liveCount s (visitL .pers st0 snapP).cur = 0 := by
      have := visitL_cur_live_le .pers s st0 snapP
      omega
    have hc2 := visitL_temp_dead_countTr s (visitL .pers st0 snapP) snapT hdead1
    omega
  · have hb2 := visitL_countTr_le .temp s (visitL .pers st0 snapP) snapT
    omega

theorem publishH_countTr_le {s : Nat} {h : Handler} (hJ : Jh s h) (ev : Nat) :
    countTr s ((h.publishH ev).2) ≤ Blive s h := by
  obtain ⟨h1, h2, h3⟩ := hJ
  have hmain := twopass_countTr_le s (⟨{ h with onceL := [] }, h.onceL, ev, []⟩ : DState)
      ((h.onL.map (·.serial)).reverse)
      ((((visitL .pers (⟨{ h with onceL := [] }, h.onceL, ev, []⟩ : DState)
        ((h.onL.map (·.serial)).reverse)).cur).map (·.serial)).reverse)
      (by rfl)
      (by rw [List.countP_reverse, List.countP_map]
          exact List.countP_eq_zero.mpr (fun x hx hb2 => h2 x hx (eq_of_beq hb2)))
      (by rw [List.countP_reverse]
          rw [visitL_cur_serials .pers (⟨{ h with onceL := [] }, h.onceL, ev, []⟩ : DState)
            ((h.onL.map (·.serial)).reverse)]
          rw [List.countP_map]
          exact h3)
  exact hmain

theorem publishH_Jh {s : Nat} {h : Handler} (hJ : Jh s h) (ev : Nat) :
    Jh s ((h.publishH ev).1) ∧ Blive s ((h.publishH ev).1) = 0 := by
  obtain ⟨h1, h2, h3⟩ := hJ
  have hS0 : SJh s (⟨{ h with onceL := [] }, h.onceL, ev, []⟩ : DState).h :=
    ⟨h1, h2, fun e he => absurd he (List.not_mem_nil e)⟩
  have hS2 := visitL_SJh .temp
      (visitL_SJh .pers hS0 ((h.onL.map (·.serial)).reverse))
      ((((visitL .pers (⟨{ h with onceL := [] }, h.onceL, ev, []⟩ : DState)
        ((h.onL.map (·.serial)).reverse)).cur).map (·.serial)).reverse)
  obtain ⟨s1, s2, s3⟩ := hS2
  constructor
  · refine ⟨s1, ?_, ?_⟩
    · intro e' he
      exact s2 e' (List.mem_filter.mp he).1
    · have hz : ((h.publishH ev).1).onceL.countP (fun e => e.serial == s) = 0 :=
        List.countP_eq_zero.mpr (fun x hx hb => s3 x hx (eq_of_beq hb))
      omega
  · exact List.countP_eq_zero.mpr
      (fun x hx hb => s3 x hx (eq_of_beq ((Bool.and_eq_true _ _).mp hb).1))

/-! ## Emitter-level bookkeeping for the operation language -/

theorem onceE_slot_self_any (e : Emitter) (t lid : Nat) (acts : List Action) :
    (e.onceE t lid acts).1.slot t = some (((e.refH t).onceH lid acts).1) := by
  show ((⟨(e.handlerE t).handlers.set t
      (some ((e.refH t).onceH lid acts).1)⟩ : Emitter)).slot t = _
  exact slot_update_self e t _

theorem onceE_slot_self {e : Emitter} {t : Nat} {h : Handler} (hs : e.slot t = some h)
    (lid : Nat) (acts : List Action) :
    (e.onceE t lid acts).1.slot t = some ((h.onceH lid acts).1) := by
  rw [onceE_slot_self_any, refH_of_some hs]

theorem onceE_slot_other (e : Emitter) {t' t : Nat} (hne : t' ≠ t)
    (lid : Nat) (acts : List Action) :
    (e.onceE t' lid acts).1.slot t = e.slot t := by
  show ((⟨(e.handlerE t').handlers.set t'
      (some ((e.refH t').onceH lid acts).1)⟩ : Emitter)).slot t = _
  exact slot_update_other e hne _

theorem onE_slot_self {e : Emitter} {t : Nat} {h : Handler} (hs : e.slot t = some h)
    (lid : Nat) (acts : List Action) :
    (e.onE t lid acts).1.slot t = some ((h.onH lid acts).1) := by
  show ((⟨(e.handlerE t).handlers.set t
      (some ((e.refH t).onH lid acts).1)⟩ : Emitter)).slot t = _
  rw [slot_update_self e t, refH_of_some hs]

theorem onE_slot_other (e : Emitter) {t' t : Nat} (hne : t' ≠ t)
    (lid : Nat) (acts : List Action) :
    (e.onE t' lid acts).1.slot t = e.slot t := by
  show ((⟨(e.handlerE t').handlers.set t'
      (some ((e.refH t').onH lid acts).1)⟩ : Emitter)).slot t = _
  exact slot_update_other e hne _

theorem eraseE_slot_self {e : Emitter} {t : Nat} {h : Handler} (hs : e.slot t = some h)
    (c : Nat) : (e.eraseE t c).slot t = some (h.eraseH c) := by
  show ((⟨(e.handlerE t).handlers.set t
      (some ((e.refH t).eraseH c))⟩ : Emitter)).slot t = _
  rw [slot_update_self e t, refH_of_some hs]

theorem eraseE_slot_other (e : Emitter) {t' t : Nat} (hne : t' ≠ t) (c : Nat) :
    (e.eraseE t' c).slot t = e.slot t := by
  show ((⟨(e.handlerE t').handlers.set t'
      (some ((e.refH t').eraseH c))⟩ : Emitter)).slot t = _
  exact slot_update_other e hne _

theorem clearE_slot_self {e : Emitter} {t : Nat} {h : Handler} (hs : e.slot t = some h) :
    (e.clearE t).slot t = some (h.clearH) := by
  show ((⟨(e.handlerE t).handlers.set t
      (some ((e.refH t).clearH))⟩ : Emitter)).slot t = _
  rw [slot_update_self e t, refH_of_some hs]

theorem clearE_slot_other (e : Emitter) {t' t : Nat} (hne : t' ≠ t) :
    (e.clearE t').slot t = e.slot t := by
  show ((⟨(e.handlerE t').handlers.set t'
      (some ((e.refH t').clearH))⟩ : Emitter)).slot t = _
  exact slot_update_other e hne _

theorem publishE_slot_self {e : Emitter} {t : Nat} {h : Handler} (hs : e.slot t = some h)
    (ev : Nat) : (e.publishE t ev).1.slot t = some ((h.publishH ev).1) := by
  show ((⟨(e.handlerE t).handlers.set t
      (some ((e.refH t).publishH ev).1)⟩ : Emitter)).slot t = _
  rw [slot_update_self e t, refH_of_some hs]

theorem publishE_slot_other (e : Emitter) {t' t : Nat} (hne : t' ≠ t) (ev : Nat) :
    (e.publishE t' ev).1.slot t = e.slot t := by
  show ((⟨(e.handlerE t').handlers.set t'
      (some ((e.refH t').publishH ev).1)⟩ : Emitter)).slot t = _
  exact slot_update_other e hne _

theorem publishE_snd {e : Emitter} {t : Nat} {h : Handler} (hs : e.slot t = some h)
    (ev : Nat) : (e.publishE t ev).2 = (h.publishH ev).2 := by
  show ((e.refH t).publishH ev).2 = _
  rw [refH_of_some hs]

theorem countInv_append (t s : Nat) (a b : List (Nat × Inv)) :
    countInv t s (a ++ b) = countInv t s a + countInv t s b :=
  List.countP_append _ _ _

theorem countInv_map_tag_self (t s : Nat) (tr : List Inv) :
    countInv t s (tr.map (fun i => (t, i))) = countTr s tr := by
  unfold countInv countTr
  rw [List.countP_map]
  apply List.countP_congr
  intro i _
  simp

theorem countInv_map_tag_ne {t' t : Nat} (hne : t' ≠ t) (s : Nat) (tr : List Inv) :
    countInv t s (tr.map (fun i => (t', i))) = 0 := by
  unfold countInv
  rw [List.countP_map, List.countP_eq_zero]
  intro i _
  simp [hne]

theorem run_cons (e : Emitter) (op : Op) (ops : List Op) :
    run e (op :: ops)
      = ((run (step e op).1 ops).1, (step e op).2 ++ (run (step e op).1 ops).2) := rfl

theorem run_append (e : Emitter) (l₁ l₂ : List Op) :
    run e (l₁ ++ l₂)
      = ((run (run e l₁).1 l₂).1, (run e l₁).2 ++ (run (run e l₁).1 l₂).2) := by
  induction l₁ generalizing e with
  | nil => rfl
  | cons op l' ih =>
      rw [List.cons_append, run_cons, ih, run_cons]
      simp [List.append_assoc]

/-! ## Well-formedness of every reachable emitter -/

theorem WFh_init : Handler.init.WFh :=
  ⟨fun e he => absurd he (List.not_mem_nil e),
    fun e he => absurd he (List.not_mem_nil e)⟩

theorem WFh_onceH {h : Handler} (hW : h.WFh) (lid : Nat) (acts : List Action) :
    ((h.onceH lid acts).1).WFh := by
  refine ⟨?_, fun e he => Nat.lt_succ_of_lt (hW.2 e he)⟩
  intro e he
  rcases List.mem_append.mp he with hx | hx
  · exact Nat.lt_succ_of_lt (hW.1 e hx)
  · rw [List.mem_singleton] at hx
    subst hx
    exact Nat.lt_succ_self _

theorem WFh_onH {h : Handler} (hW : h.WFh) (lid : Nat) (acts : List Action) :
    ((h.onH lid acts).1).WFh := by
  refine ⟨fun e he => Nat.lt_succ_of_lt (hW.1 e he), ?_⟩
  intro e he
  rcases List.mem_cons.mp he with hx | hx
  · subst hx; exact Nat.lt_succ_self _
  · exact Nat.lt_succ_of_lt (hW.2 e hx)

theorem WFh_eraseH {h : Handler} (hW : h.WFh) (c : Nat) : (h.eraseH c).WFh := by
  refine ⟨?_, ?_⟩ <;> intro e he
  · rcases mem_eraseList he with ⟨x, hx, hser⟩
    rw [hser]
    exact hW.1 x hx
  · rcases mem_eraseList he with ⟨x, hx, hser⟩
    rw [hser]
    exact hW.2 x hx

theorem WFh_clearH {h : Handler} (hW : h.WFh) : (h.clearH).WFh := by
  refine ⟨?_, ?_⟩ <;> intro e he
  · rcases List.mem_map.mp he with ⟨x, hx, rfl⟩
    exact hW.1 x hx
  · rcases List.mem_map.mp he with ⟨x, hx, rfl⟩
    exact hW.2 x hx

theorem WFe_refH {e : Emitter} (hW : e.WFe) (t : Nat) : (e.refH t).WFh := by
  rw [refH_eq]
  cases hs : e.slot t with
  | none => exact WFh_init
  | some h => exact hW t h hs

theorem WFe_update {e : Emitter} (hW : e.WFe) (t : Nat) {nh : Handler} (hnh : nh.WFh) :
    Emitter.WFe (⟨(e.handlerE t).handlers.set t (some nh)⟩ : Emitter) := by
  intro t' h' hs'
  by_cases hq : t = t'
  · subst hq
    rw [slot_update_self] at hs'
    exact (Option.some.inj hs') ▸ hnh
  · rw [slot_update_other e hq] at hs'
    exact hW t' h' hs'

theorem WFe_step {e : Emitter} (hW : e.WFe) (op : Op) : Emitter.WFe (step e op).1 := by
  cases op with
  | onceO t lid acts => exact WFe_update hW t (WFh_onceH (WFe_refH hW t) lid acts)
  | onO t lid acts => exact WFe_update hW t (WFh_onH (WFe_refH hW t) lid acts)
  | eraseO t c => exact WFe_update hW t (WFh_eraseH (WFe_refH hW t) c)
  | clearO t => exact WFe_update hW t (WFh_clearH (WFe_refH hW t))
  | clearAllO =>
      intro t h' hs'
      rw [show (step e .clearAllO).1 = e.clearAllE from rfl, slot_clearAllE] at hs'
      cases hs0 : e.slot t with
      | none => rw [hs0] at hs'; cases hs'
      | some h0 =>
          rw [hs0] at hs'
          exact (Option.some.inj hs') ▸ WFh_clearH (hW t h0 hs0)
  | publishO t ev => exact WFe_update hW t (publishH_WFh (WFe_refH hW t) ev)

theorem WFe_init : Emitter.WFe Emitter.initE := fun t h hs => nomatch hs

theorem WFe_run {e : Emitter} (hW : e.WFe) (ops : List Op) :
    Emitter.WFe (run e ops).1 := by
  induction ops generalizing e with
  | nil => exact hW
  | cons op ops' ih => exact ih (WFe_step hW op)

/-! ## The at-most-once theorem over whole operation sequences -/

theorem step_Jh_bound {t s : Nat} {e : Emitter} {h : Handler}
    (hs : e.slot t = some h) (hJ : Jh s h) (op : Op) :
    ∃ h', (step e op).1.slot t = some h' ∧ Jh s h'
      ∧ countInv t s (step e op).2 + Blive s h' ≤ Blive s h := by
  cases op with
  | onceO t' lid acts =>
      by_cases hq : t' = t
      · subst hq
        refine ⟨(h.onceH lid acts).1, onceE_slot_self hs lid acts,
          (Jh_onceH hJ lid acts).1, ?_⟩
        have hb := (Jh_onceH hJ lid acts).2
        have h0 : countInv t' s (step e (Op.onceO t' lid acts)).2 = 0 := rfl
        omega
      · refine ⟨h, ?_, hJ, ?_⟩
        · show (e.onceE t' lid acts).1.slot t = some h
          rw [onceE_slot_other e hq lid acts]
          exact hs
        · have h0 : countInv t s (step e (Op.onceO t' lid acts)).2 = 0 := rfl
          omega
  | onO t' lid acts =>
      by_cases hq : t' = t
      · subst hq
        refine ⟨(h.onH lid acts).1, onE_slot_self hs lid acts,
          (Jh_onH hJ lid acts).1, ?_⟩
        have hb := (Jh_onH hJ lid acts).2
        have h0 : countInv t' s (step e (Op.onO t' lid acts)).2 = 0 := rfl
        omega
      · refine ⟨h, ?_, hJ, ?_⟩
        · show (e.onE t' lid acts).1.slot t = some h
          rw [onE_slot_other e hq lid acts]
          exact hs
        · have h0 : countInv t s (step e (Op.onO t' lid acts)).2 = 0 := rfl
          omega
  | eraseO t' c =>
      by_cases hq : t' = t
      · subst hq
        refine ⟨h.eraseH c, eraseE_slot_self hs c, (Jh_eraseH hJ c).1, ?_⟩
        have hb := (Jh_eraseH hJ c).2
        have h0 : countInv t' s (step e (Op.eraseO t' c)).2 = 0 := rfl
        omega
      · refine ⟨h, ?_, hJ, ?_⟩
        · show (e.eraseE t' c).slot t = some h
          rw [eraseE_slot_other e hq c]
          exact hs
        · have h0 : countInv t s (step e (Op.eraseO t' c)).2 = 0 := rfl
          omega
  | clearO t' =>
      by_cases hq : t' = t
      · subst hq
        refine ⟨h.clearH, clearE_slot_self hs, (Jh_clearH hJ).1, ?_⟩
        have hb := (Jh_clearH hJ).2
        have h0 : countInv t' s (step e (Op.clearO t')).2 = 0 := rfl
        omega
      · refine ⟨h, ?_, hJ, ?_⟩
        · show (e.clearE t').slot t = some h
          rw [clearE_slot_other e hq]
          exact hs
        · have h0 : countInv t s (step e (Op.clearO t')).2 = 0 := rfl
          omega
  | clearAllO =>
      refine ⟨h.clearH, ?_, (Jh_clearH hJ).1, ?_⟩
      · rw [show (step e .clearAllO).1 = e.clearAllE from rfl, slot_clearAllE, hs]
        rfl
      · have hb := (Jh_clearH hJ).2
        have h0 : countInv t s (step e Op.clearAllO).2 = 0 := rfl
        omega
  | publishO t' ev =>
      by_cases hq : t' = t
      · subst hq
        refine ⟨(h.publishH ev).1, publishE_slot_self hs ev, (publishH_Jh hJ ev).1, ?_⟩
        have hB0 := (publishH_Jh hJ ev).2
        have htr : countInv t' s (step e (Op.publishO t' ev)).2
            = countTr s ((h.publishH ev).2) := by
          show countInv t' s ((e.publishE t' ev).2.map (fun i => (t', i))) = _
          rw [publishE_snd hs ev, countInv_map_tag_self]
        have hD1 := publishH_countTr_le hJ ev
        omega
      · refine ⟨h, ?_, hJ, ?_⟩
        · show (e.publishE t' ev).1.slot t = some h
          rw [publishE_slot_other e hq ev]
          exact hs
        · have htr : countInv t s (step e (Op.publishO t' ev)).2 = 0 := by
            show countInv t s ((e.publishE t' ev).2.map (fun i => (t', i))) = 0
            exact countInv_map_tag_ne hq s _
          omega

theorem run_countInv_le {t s : Nat} (ops : List Op) :
    ∀ (e : Emitter) (h : Handler), e.slot t = some h → Jh s h →
      countInv t s (run e ops).2 ≤ Blive s h := by
  induction ops with
  | nil =>
      intro e h hs hJ
      exact Nat.zero_le _
  | cons op ops' ih =>
      intro e h hs hJ
      obtain ⟨h', hslot', hJ', hbound⟩ := step_Jh_bound hs hJ op
      have hrest := ih _ _ hslot' hJ'
      have hsplit : countInv t s (run e (op :: ops')).2
          = countInv t s (step e op).2 + countInv t s (run (step e op).1 ops').2 := by
        show countInv t s ((step e op).2 ++ (run (step e op).1 ops').2) = _
        exact countInv_append t s _ _
      omega

theorem run_Jh_slot {t s : Nat} (ops : List Op) :
    ∀ (e : Emitter) (h : Handler), e.slot t = some h → Jh s h →
      ∃ h', (run e ops).1.slot t = some h' ∧ Jh s h' := by
  induction ops with
  | nil =>
      intro e h hs hJ
      exact ⟨h, hs, hJ⟩
  | cons op ops' ih =>
      intro e h hs hJ
      obtain ⟨h', hslot', hJ', _⟩ := step_Jh_bound hs hJ op
      exact ih _ _ hslot' hJ'

theorem step_countInv_no_publish {t s : Nat} {e : Emitter} {op : Op}
    (hnp : op.isPublishOn t = false) : countInv t s (step e op).2 = 0 := by
  cases op with
  | publishO t' ev =>
      have hne : t' ≠ t := by
        intro hEq
        subst hEq
        simp [Op.isPublishOn] at hnp
      exact countInv_map_tag_ne hne s _
  | onceO t' lid acts => rfl
  | onO t' lid acts => rfl
  | eraseO t' c => rfl
  | clearO t' => rfl
  | clearAllO => rfl

theorem run_countInv_no_publish {t s : Nat} :
    ∀ (ops : List Op), (∀ op ∈ ops, op.isPublishOn t = false) →
      ∀ e, countInv t s (run e ops).2 = 0 := by
  intro ops
  induction ops with
  | nil => intro _ e; rfl
  | cons op ops' ih =>
      intro hnp e
      have h1 : countInv t s (step e op).2 = 0 :=
        step_countInv_no_publish (hnp op (List.mem_cons_self op ops'))
      have h2 := ih (fun op' h' => hnp op' (List.mem_cons_of_mem op h')) (step e op).1
      have hsplit : countInv t s (run e (op :: ops')).2
          = countInv t s (step e op).2 + countInv t s (run (step e op).1 ops').2 := by
        show countInv t s ((step e op).2 ++ (run (step e op).1 ops').2) = _
        exact countInv_append t s _ _
      omega

theorem Jh_fresh_once {h0 : Handler} (hW : h0.WFh) (lid : Nat) (acts : List Action) :
    Jh h0.nextSerial ((h0.onceH lid acts).1)
      ∧ Blive h0.nextSerial ((h0.onceH lid acts).1) = 1 := by
  constructor
  · refine ⟨Nat.lt_succ_self _, ?_, ?_⟩
    · intro e' he
      exact Nat.ne_of_lt (hW.2 e' he)
    · show (h0.onceL ++ [(⟨h0.nextSerial, false, lid, acts⟩ : Element)]).countP
        (fun e => e.serial == h0.nextSerial) ≤ 1
      rw [List.countP_append, List.countP_cons, List.countP_nil]
      have hz : h0.onceL.countP (fun e => e.serial == h0.nextSerial) = 0 :=
        List.countP_eq_zero.mpr
          (fun x hx hb => (Nat.ne_of_lt (hW.1 x hx)) (eq_of_beq hb))
      simp [hz]
  · show liveCount h0.nextSerial
      (h0.onceL ++ [(⟨h0.nextSerial, false, lid, acts⟩ : Element)]) = 1
    unfold liveCount
    rw [List.countP_append, List.countP_cons, List.countP_nil]
    have hz : h0.onceL.countP
        (fun e => e.serial == h0.nextSerial && !e.tomb) = 0 :=
      List.countP_eq_zero.mpr
        (fun x hx hb =>
          (Nat.ne_of_lt (hW.1 x hx)) (eq_of_beq ((Bool.and_eq_true _ _).mp hb).1))
    simp [hz]

/-- C2: a listener registered via `once` on an event type fires at most once,
over every sequence of subsequent emitter operations (registrations,
erasures, clears, publishes of any event types, with listeners that may
themselves erase and register during dispatch).  First conjunct: every
emitter reachable from a fresh one is well-formed (serials below the
counter), so the remaining conjuncts cover all reachable states.  Second
conjunct: the connection returned by `once` is invoked at most once across
any operation sequence.  Third conjunct: if that connection is erased before
the first publish of its event type, it is never invoked at all. -/
theorem c2_once_fires_at_most_once :
    (∀ ops : List Op, Emitter.WFe (run Emitter.initE ops).1)
    ∧ (∀ (e0 : Emitter), Emitter.WFe e0 →
        ∀ (t lid : Nat) (acts : List Action) (ops₂ : List Op),
        countInv t ((e0.onceE t lid acts).2)
          (run (e0.onceE t lid acts).1 ops₂).2 ≤ 1)
    ∧ (∀ (e0 : Emitter), Emitter.WFe e0 →
        ∀ (t lid : Nat) (acts : List Action) (ops₃ ops₄ : List Op),
        (∀ op ∈ ops₃, op.isPublishOn t = false) →
        countInv t ((e0.onceE t lid acts).2)
          (run (e0.onceE t lid acts).1
            (ops₃ ++ Op.eraseO t ((e0.onceE t lid acts).2) :: ops₄)).2 = 0) := by
  refine ⟨fun ops => WFe_run WFe_init ops, ?_, ?_⟩
  · intro e0 hW t lid acts ops₂
    have hW0 := WFe_refH hW t
    have hslot := onceE_slot_self_any e0 t lid acts
    have hJB := Jh_fresh_once hW0 lid acts
    have hle := run_countInv_le ops₂ _ _ hslot hJB.1
    rw [hJB.2] at hle
    exact hle
  · intro e0 hW t lid acts ops₃ ops₄ hnp
    have hW0 := WFe_refH hW t
    have hslot := onceE_slot_self_any e0 t lid acts
    have hJB := Jh_fresh_once hW0 lid acts
    obtain ⟨h₃, hslot₃, hJ₃⟩ := run_Jh_slot ops₃ _ _ hslot hJB.1
    have hslotE : ((run (e0.onceE t lid acts).1 ops₃).1.eraseE t
        ((e0.refH t).nextSerial)).slot t
        = some (h₃.eraseH ((e0.refH t).nextSerial)) :=
      eraseE_slot_self hslot₃ _
    have hJE := (Jh_eraseH hJ₃ ((e0.refH t).nextSerial)).1
    have hrest := run_countInv_le ops₄ _ _ hslotE hJE
    rw [Blive_eraseH_self] at hrest
    have h3tr : countInv t ((e0.refH t).nextSerial)
        (run (e0.onceE t lid acts).1 ops₃).2 = 0 :=
      run_countInv_no_publish ops₃ hnp _
    have hsEq : (e0.onceE t lid acts).2 = (e0.refH t).nextSerial := rfl
    rw [hsEq]
    have h2nd := congrArg Prod.snd (run_append (e0.onceE t lid acts).1 ops₃
        (Op.eraseO t ((e0.refH t).nextSerial) :: ops₄))
    rw [h2nd, countInv_append, h3tr]
    have hx : countInv t ((e0.refH t).nextSerial)
        (run (run (e0.onceE t lid acts).1 ops₃).1
          (Op.eraseO t ((e0.refH t).nextSerial) :: ops₄)).2
        = countInv t ((e0.refH t).nextSerial)
          (run ((run (e0.onceE t lid acts).1 ops₃).1.eraseE t
            ((e0.refH t).nextSerial)) ops₄).2 := rfl
    rw [hx]
    omega

/-- Witness for C2: a one-shot listener labelled 7 on event type 0; two
publishes of type 0 yield at most one invocation of its connection, and with
an early erase (after only a publish of the unrelated type 1) it never
fires. -/
theorem c2_once_fires_at_most_once_witness :
    countInv 0 0 (run ((Emitter.initE.onceE 0 7 []).1)
      [Op.publishO 0 3, Op.publishO 0 4]).2 ≤ 1
    ∧ countInv 0 0 (run ((Emitter.initE.onceE 0 7 []).1)
        ([Op.publishO 1 9] ++ Op.eraseO 0 0 :: [Op.publishO 0 5])).2 = 0 := by
  constructor
  · exact c2_once_fires_at_most_once.2.1 Emitter.initE WFe_init 0 7 []
      [Op.publishO 0 3, Op.publishO 0 4]
  · exact c2_once_fires_at_most_once.2.2 Emitter.initE WFe_init 0 7 []
      [Op.publishO 1 9] [Op.publishO 0 5] (by decide)

end Uvw
